import Mathlib

/-!
# Verification of the dependency-parser demo script

Shallow embedding of `src/assingment_2/student/use_parser.py` (a consumer
script for a pretrained transition-based dependency parser), together with a
model of the arc-standard parsing loop that the script calls into through the
external `parser.parse` API.  The parsing loop itself is not part of the shown
source, so it is modelled from the specification's description of the
arc-standard transition system (stack, buffer, arc set; SHIFT / LEFT-ARC /
RIGHT-ARC with their legality conditions; greedy selection of the
highest-scoring legal transition).
-/

set_option autoImplicit false

namespace UseParser

/-- A sentence in the minimal CONLL shape built by `create_conll_sentence`:
parallel lists of words, POS tags, head indices and dependency labels. -/
structure ConllSentence where
  word : List String
  pos : List String
  head : List Nat
  label : List String
deriving Repr, DecidableEq

/-- `create_conll_sentence` from `use_parser.py`: wraps a word list with
placeholder POS tags (`'NN'`), heads (`0`) and labels (`'dep'`). -/
def create_conll_sentence (sentence_words : List String) : ConllSentence :=
  { word := sentence_words
    pos := List.replicate sentence_words.length "NN"
    head := List.replicate sentence_words.length 0
    label := List.replicate sentence_words.length "dep" }

/-- An error raised by the external parser API (a Python exception message). -/
structure PError where
  msg : String
deriving Repr, DecidableEq

/-- The external parser object consumed by the script: `vectorize` and `parse`
may each raise an exception.  `V` is the opaque type of vectorized sentences.
`parse` returns a UAS value and a list of per-sentence dependency lists. -/
structure DepParser (V : Type) where
  vectorize : List ConllSentence → Except PError (List V)
  parse : List V → Except PError (Rat × List (List (Nat × Nat)))

/-- The printed outcome for one sentence inside `parse_sentences`: either the
UAS and dependency list that get printed, or the exception that the `except`
branch reports. -/
inductive SentenceResult where
  | ok (uas : Rat) (dependencies : List (Nat × Nat))
  | error (e : PError)
deriving Repr, DecidableEq

/-- The body of the per-sentence `try` block of `parse_sentences`: build the
CONLL record, vectorize it, parse it, and take `dependencies_list[0]`; any
exception (including the `IndexError` when `dependencies_list` is empty) is
caught and reported as the sentence's outcome. -/
def parseSentenceStep {V : Type} (p : DepParser V) (sentence : List String) :
    SentenceResult :=
  match p.vectorize [create_conll_sentence sentence] with
  | .error e => .error e
  | .ok vectorized_sentences =>
    match p.parse vectorized_sentences with
    | .error e => .error e
    | .ok (uasVal, dependencies_list) =>
      match dependencies_list with
      | [] => .error ⟨"list index out of range"⟩
      | dependencies :: _ => .ok uasVal dependencies

/-- `parse_sentences` from `use_parser.py`.  The loop prints a result or an
error for every sentence (modelled as the first component), while the
function's Python return value is the `all_dependencies` list, which is
initialized to `[]` and never appended to (second component). -/
def parse_sentences {V : Type} (p : DepParser V) (sentences : List (List String)) :
    List SentenceResult × List (List (Nat × Nat)) :=
  (sentences.map (parseSentenceStep p), [])

/-- A Python string, modelled as its list of characters (so that the string
operations of `interactive_mode` — strip, lower, split — are structurally
recursive and computable). -/
abbrev PyStr := List Char

/-- Python `str.strip()`: remove leading and trailing whitespace. -/
def pyStrip (s : PyStr) : PyStr :=
  ((s.dropWhile Char.isWhitespace).reverse.dropWhile Char.isWhitespace).reverse

/-- Python `str.lower()` (restricted to the ASCII case mapping). -/
def pyLower (s : PyStr) : PyStr := s.map Char.toLower

/-- Helper for `pySplit`: `acc` holds the current in-progress word, reversed. -/
def pySplitAux : PyStr → PyStr → List PyStr
  | [], acc => if acc = [] then [] else [acc.reverse]
  | ch :: rest, acc =>
    if ch.isWhitespace then
      if acc = [] then pySplitAux rest []
      else acc.reverse :: pySplitAux rest []
    else pySplitAux rest (ch :: acc)

/-- Python `str.split()` with no arguments: split on runs of whitespace,
discarding empty fragments. -/
def pySplit (s : PyStr) : List PyStr := pySplitAux s []

/-- What one iteration of the `interactive_mode` loop does with an input line. -/
inductive IAction where
  | quit
  | skip
  | refuse (msg : String)
  | parse (sentence : List PyStr)
deriving Repr, DecidableEq

/-- One iteration of the `interactive_mode` loop of `use_parser.py`: strip the
input; `quit`/`exit`/`q` quits; blank input is skipped with no message; fewer
than 2 tokens is refused with the "too short" message; otherwise the token
list is forwarded to `parse_sentences`. -/
def interactive_step (user_input : PyStr) : IAction :=
  let stripped := pyStrip user_input
  if ["quit".toList, "exit".toList, "q".toList].contains (pyLower stripped) then .quit
  else if stripped = [] then .skip
  else
    let sentence := pySplit stripped
    if sentence.length < 2 then .refuse "Sentence too short! Need at least 2 words."
    else .parse sentence

/-- Whether an interactive action prints a rejection report to the user. -/
def reportsRejection : IAction → Bool
  | .refuse _ => true
  | _ => false

/-- Whether an interactive action forwards a sentence to `parse_sentences`. -/
def callsParser : IAction → Bool
  | .parse _ => true
  | _ => false

/-- A concrete parser stub: vectorization is the identity and parsing fails
with a classifier-query error exactly on sentences containing the word
"boom", otherwise attaching everything to ROOT with UAS 1. -/
def stubParser : DepParser ConllSentence where
  vectorize := fun cs => .ok cs
  parse := fun vs =>
    if vs.any (fun v => v.word.contains "boom") then .error ⟨"ClassifierQueryError"⟩
    else .ok (1, vs.map (fun _ => [(0, 1)]))

end UseParser

namespace ArcStandard

/-- Modelled from the spec: the arc-standard transition set
{SHIFT, LEFT-ARC, RIGHT-ARC} of the Parsing Loop, which is part of the
external `parser.parse` implementation and not present in `src/`. -/
inductive Transition where
  | SHIFT
  | LEFTARC
  | RIGHTARC
deriving Repr, DecidableEq

/-- Modelled from the spec: a parser configuration — a stack of token indices
(top at the head of the list, ROOT = 0 initially on it), a buffer of remaining
token indices, and the list of produced (head, dependent) arcs. -/
structure Config where
  stack : List Nat
  buffer : List Nat
  arcs : List (Nat × Nat)
deriving Repr, DecidableEq

/-- Modelled from the spec: the initial configuration for a sentence of `n`
tokens — stack `[ROOT]`, buffer `[1, …, n]`, no arcs. -/
def initConfig (n : Nat) : Config :=
  { stack := [0], buffer := List.range' 1 n, arcs := [] }

/-- Modelled from the spec: legality of a transition.  SHIFT needs a non-empty
buffer; LEFT-ARC needs ≥ 2 stack elements with a non-ROOT second-from-top;
RIGHT-ARC needs ≥ 2 stack elements. -/
def legal (c : Config) : Transition → Bool
  | .SHIFT => !c.buffer.isEmpty
  | .LEFTARC =>
    match c.stack with
    | _ :: s :: _ => s != 0
    | _ => false
  | .RIGHTARC =>
    match c.stack with
    | _ :: _ :: _ => true
    | _ => false

/-- Modelled from the spec: applying a transition.  SHIFT moves the buffer
front onto the stack; LEFT-ARC attaches the second-from-top as dependent of
the top and pops the second; RIGHT-ARC attaches the top as dependent of the
second-from-top and pops the top. -/
def applyT (c : Config) : Transition → Config
  | .SHIFT =>
    match c.buffer with
    | b :: rest => { c with stack := b :: c.stack, buffer := rest }
    | [] => c
  | .LEFTARC =>
    match c.stack with
    | t :: s :: rest => { c with stack := t :: rest, arcs := c.arcs ++ [(t, s)] }
    | _ => c
  | .RIGHTARC =>
    match c.stack with
    | t :: s :: rest => { c with stack := s :: rest, arcs := c.arcs ++ [(s, t)] }
    | _ => c

/-- Modelled from the spec: a configuration is terminal when the buffer is
empty and the stack contains only ROOT. -/
def terminal (c : Config) : Bool :=
  c.buffer.isEmpty && decide (c.stack = [0])

/-- The transition set in the fixed tie-breaking preference order
LEFT-ARC > RIGHT-ARC > SHIFT suggested by the spec. -/
def transList : List Transition := [.LEFTARC, .RIGHTARC, .SHIFT]

/-- First maximum of `score` over a candidate list (earlier entries win ties). -/
def pickBest (score : Transition → Int) : List Transition → Option Transition
  | [] => none
  | t :: ts =>
    match pickBest score ts with
    | none => some t
    | some u => if score t < score u then some u else some t

/-- Modelled from the spec: the highest-scoring legal transition in the current
configuration (`none` exactly when no transition is legal — the fatal branch). -/
def chooseT (cls : Config → Transition → Int) (c : Config) : Option Transition :=
  pickBest (cls c) (transList.filter (legal c))

/-- Modelled from the spec: the Parsing Loop, fuelled.  Repeats until terminal,
each round applying the highest-scoring legal transition; returns the final
configuration and the trace of applied transitions, or `none` on fuel
exhaustion or when no transition is legal. -/
def parseRun (cls : Config → Transition → Int) :
    Nat → Config → Option (Config × List Transition)
  | 0, _ => none
  | fuel + 1, c =>
    if terminal c then some (c, [])
    else
      (chooseT cls c).bind fun t =>
        (parseRun cls fuel (applyT c t)).map fun r => (r.1, t :: r.2)

/-- Modelled from the spec: the head predicted for token `i` by an arc list —
the head of the first arc whose dependent is `i`. -/
def predictedHead (arcs : List (Nat × Nat)) (i : Nat) : Option Nat :=
  (arcs.find? (fun a => a.2 == i)).map Prod.fst

/-- Modelled from the spec: unlabeled attachment score — the fraction of
non-ROOT tokens whose predicted head equals the gold head, with the ROOT token
excluded from the denominator (`gold` lists the gold heads of tokens `1…n`). -/
def uas (gold : List Nat) (arcs : List (Nat × Nat)) : Rat :=
  let n := gold.length
  (((List.range n).filter
      (fun k => predictedHead arcs (k + 1) == some (gold.getD k 0))).length : Rat) / (n : Rat)

/-- The loop invariant of the Parsing Loop: ROOT (0) sits at the bottom of the
stack and nowhere else, and never occurs in the buffer. -/
def Inv (c : Config) : Prop :=
  ∃ s', c.stack = s' ++ [0] ∧ 0 ∉ s' ∧ 0 ∉ c.buffer

/-- Configurations reachable from the initial configuration of a sentence of
length `n` by legal transitions. -/
inductive Reach (n : Nat) : Config → Prop where
  | init : Reach n (initConfig n)
  | step : ∀ c t, Reach n c → legal c t = true → Reach n (applyT c t)

/-- A concrete classifier assigning every transition the same score (so the
preference order LEFT-ARC > RIGHT-ARC > SHIFT decides every step). -/
def uniformScore : Config → Transition → Int := fun _ _ => 0

/-- A concrete classifier preferring SHIFT, then LEFT-ARC, then RIGHT-ARC. -/
def shiftFirstScore : Config → Transition → Int := fun _ t =>
  match t with
  | .SHIFT => 2
  | .LEFTARC => 1
  | .RIGHTARC => 0

end ArcStandard

open UseParser ArcStandard

/-- C8: for every list of `n` word strings, `create_conll_sentence` returns a
record whose `word` field is exactly the input list and whose `pos`, `head`
and `label` fields are the placeholders `['NN']*n`, `[0]*n` and `['dep']*n`. -/
theorem create_conll_sentence_fields (ws : List String) :
    (create_conll_sentence ws).word = ws ∧
    (create_conll_sentence ws).pos = List.replicate ws.length "NN" ∧
    (create_conll_sentence ws).head = List.replicate ws.length 0 ∧
    (create_conll_sentence ws).label = List.replicate ws.length "dep" :=
  ⟨rfl, rfl, rfl, rfl⟩

/-- C2: `parse_sentences` never returns the per-sentence arc sets — its
`all_dependencies` return value is initialized to `[]`, never appended to,
and returned as the empty list for every input, even when every sentence
parses successfully.  This contradicts the claimed contract of returning one
entry per successfully parsed sentence. -/
theorem parse_sentences_returns_no_dependencies {V : Type} (p : DepParser V)
    (sentences : List (List String)) :
    (parse_sentences p sentences).2 = [] :=
  rfl

/-- C3: if the second of three sentences fails while the first and third
succeed, `parse_sentences` still processes all three in order, reporting the
error for the second sentence and successful results for the other two. -/
theorem parse_sentences_isolates_failure {V : Type} (p : DepParser V)
    (s1 s2 s3 : List String) (u1 u3 : Rat) (d1 d3 : List (Nat × Nat)) (e : PError)
    (h1 : parseSentenceStep p s1 = .ok u1 d1)
    (h2 : parseSentenceStep p s2 = .error e)
    (h3 : parseSentenceStep p s3 = .ok u3 d3) :
    (parse_sentences p [s1, s2, s3]).1 = [.ok u1 d1, .error e, .ok u3 d3] := by
  simp [parse_sentences, h1, h2, h3]

/-- Witness for C3: with the concrete `stubParser`, the middle sentence
`["boom"]` fails and the surrounding sentences succeed. -/
theorem parse_sentences_isolates_failure_witness :
    (parse_sentences stubParser [["the", "cat"], ["boom"], ["she", "reads"]]).1 =
      [.ok 1 [(0, 1)], .error ⟨"ClassifierQueryError"⟩, .ok 1 [(0, 1)]] :=
  parse_sentences_isolates_failure stubParser ["the", "cat"] ["boom"] ["she", "reads"]
    1 1 [(0, 1)] [(0, 1)] ⟨"ClassifierQueryError"⟩ (by decide) (by decide) (by decide)

/-- Counterexample to C9 as stated: blank input is rejected without invoking
the parser, but no malformed-sentence report is produced — the loop silently
skips to the next prompt. -/
theorem interactive_blank_input_no_report :
    interactive_step "".toList = IAction.skip ∧
    reportsRejection (interactive_step "".toList) = false := by
  decide

/-- C9 (amended): an empty or single-token input never reaches the parser.
Blank input is silently skipped with no report, and a non-blank invalid input
that is not one of the quit commands (`quit`/`exit`/`q`, which end the loop)
is refused with the "Sentence too short" report. -/
theorem invalid_input_rejected_before_parsing (input : PyStr)
    (h : (pySplit (pyStrip input)).length < 2) :
    callsParser (interactive_step input) = false ∧
    (pyStrip input = [] → interactive_step input = .skip) ∧
    (pyStrip input ≠ [] →
      (["quit".toList, "exit".toList, "q".toList].contains (pyLower (pyStrip input))) = false →
      interactive_step input = .refuse "Sentence too short! Need at least 2 words.") := by
  simp only [interactive_step]
  split_ifs with h1 h2
  · refine ⟨rfl, ?_, ?_⟩
    · intro hblank
      rw [hblank] at h1
      simp [pyLower] at h1
    · intro _ hnq
      rw [hnq] at h1
      cases h1
  · exact ⟨rfl, fun _ => rfl, fun hne _ => absurd h2 hne⟩
  · exact ⟨rfl, fun hblank => absurd hblank h2, fun _ _ => rfl⟩

/-- Witness for C9 (amended): the single-word input "hello" is not forwarded
to the parser, and (being non-blank and not a quit command) is refused with
the "Sentence too short" report. -/
theorem invalid_input_rejected_before_parsing_witness :
    callsParser (interactive_step "hello".toList) = false ∧
    (pyStrip "hello".toList = [] → interactive_step "hello".toList = .skip) ∧
    (pyStrip "hello".toList ≠ [] →
      (["quit".toList, "exit".toList, "q".toList].contains (pyLower (pyStrip "hello".toList))) = false →
      interactive_step "hello".toList =
        .refuse "Sentence too short! Need at least 2 words.") :=
  invalid_input_rejected_before_parsing "hello".toList (by decide)

/-- C10: every sentence the interactive loop forwards to `parse_sentences`
has at least 2 tokens — blank input is skipped and single-word input refused,
so a length-1 sentence never reaches the parser interactively. -/
theorem interactive_parse_min_two_tokens (input : PyStr) (s : List PyStr)
    (h : interactive_step input = .parse s) : 2 ≤ s.length := by
  simp only [interactive_step] at h
  split_ifs at h <;> cases h <;> omega

/-- Witness for C10: the input "the cat" is forwarded with 2 tokens. -/
theorem interactive_parse_min_two_tokens_witness :
    2 ≤ (["the".toList, "cat".toList] : List PyStr).length :=
  interactive_parse_min_two_tokens "the cat".toList ["the".toList, "cat".toList]
    (by decide)

/-! ## Invariants of the arc-standard Parsing Loop -/

/-- `pickBest` only returns elements of its candidate list. -/
theorem pickBest_mem {score : Transition → Int} :
    ∀ {l : List Transition} {t : Transition}, pickBest score l = some t → t ∈ l := by
  intro l
  induction l with
  | nil => intro t h; cases h
  | cons a ts ih =>
    intro t h
    rw [pickBest] at h
    cases hb : pickBest score ts with
    | none =>
      simp only [hb] at h
      have := Option.some.inj h
      subst this
      exact List.mem_cons_self a ts
    | some u =>
      simp only [hb] at h
      by_cases hc : score a < score u
      · rw [if_pos hc] at h
        have := Option.some.inj h
        subst this
        exact List.mem_cons_of_mem a (ih hb)
      · rw [if_neg hc] at h
        have := Option.some.inj h
        subst this
        exact List.mem_cons_self a ts

/-- `pickBest` succeeds on every non-empty candidate list. -/
theorem pickBest_isSome (score : Transition → Int) (l : List Transition) (h : l ≠ []) :
    (pickBest score l).isSome := by
  cases l with
  | nil => exact absurd rfl h
  | cons a ts =>
    rw [pickBest]
    cases hb : pickBest score ts with
    | none => simp only [hb]; rfl
    | some u =>
      simp only [hb]
      by_cases hc : score a < score u
      · rw [if_pos hc]; rfl
      · rw [if_neg hc]; rfl

/-- The transition chosen by the Parsing Loop is always legal. -/
theorem chooseT_legal {cls : Config → Transition → Int} {c : Config} {t : Transition}
    (h : chooseT cls c = some t) : legal c t = true :=
  (List.mem_filter.mp (pickBest_mem h)).2

/-- The initial configuration satisfies the loop invariant. -/
theorem Inv_initConfig (n : Nat) : Inv (initConfig n) := by
  refine ⟨[], rfl, by simp, ?_⟩
  intro h
  have := (List.mem_range'_1.mp h).1
  omega

/-- A non-terminal configuration satisfying the invariant always has a legal
transition (the filtered candidate list is non-empty). -/
theorem legal_filter_ne_nil {c : Config} (hI : Inv c) (ht : terminal c = false) :
    transList.filter (legal c) ≠ [] := by
  obtain ⟨s', hs, hs0, hb⟩ := hI
  cases hbuf : c.buffer with
  | cons b rest =>
    have hleg : legal c .SHIFT = true := by simp [legal, hbuf]
    exact List.ne_nil_of_mem (List.mem_filter.mpr ⟨by simp [transList], hleg⟩)
  | nil =>
    have hst : c.stack ≠ [0] := by
      intro he
      rw [terminal, hbuf, he] at ht
      simp at ht
    cases s' with
    | nil => exact absurd (by simpa using hs) hst
    | cons a s2 =>
      have hstack : ∃ x y ys, c.stack = x :: y :: ys := by
        cases s2 with
        | nil => exact ⟨a, 0, [], by simpa using hs⟩
        | cons e s3 => exact ⟨a, e, s3 ++ [0], by simpa using hs⟩
      obtain ⟨x, y, ys, hxy⟩ := hstack
      have hleg : legal c .RIGHTARC = true := by simp [legal, hxy]
      exact List.ne_nil_of_mem (List.mem_filter.mpr ⟨by simp [transList], hleg⟩)

/-- Effect of one legal transition: it preserves the invariant, adds at most
one arc whose dependent leaves the pending region (stack body plus buffer),
and decreases the measure `2·|buffer| + |stack|` by exactly one. -/
theorem applyT_step {c : Config} {t : Transition} (hI : Inv c) (hl : legal c t = true) :
    Inv (applyT c t) ∧
    1 ≤ (applyT c t).stack.length ∧
    ∃ delta : List (Nat × Nat),
      (applyT c t).arcs = c.arcs ++ delta ∧
      ((delta.map Prod.snd) ++ ((applyT c t).stack.dropLast ++ (applyT c t).buffer)).Perm
        (c.stack.dropLast ++ c.buffer) ∧
      2 * (applyT c t).buffer.length + (applyT c t).stack.length + 1 =
        2 * c.buffer.length + c.stack.length ∧
      (if t = .SHIFT then delta = [] ∧ c.buffer.length = (applyT c t).buffer.length + 1
       else delta.length = 1 ∧ (applyT c t).buffer.length = c.buffer.length) := by
  obtain ⟨s', hs, hs0, hb⟩ := hI
  cases t with
  | SHIFT =>
    cases hbuf : c.buffer with
    | nil => simp [legal, hbuf] at hl
    | cons b rest =>
      have happ : applyT c .SHIFT = { c with stack := b :: c.stack, buffer := rest } := by
        simp [applyT, hbuf]
      have hbm : b ≠ 0 := by
        intro h0
        exact hb (hbuf ▸ (h0 ▸ List.mem_cons_self b rest))
      rw [happ]
      refine ⟨⟨b :: s', ?_, ?_, ?_⟩, ?_, [], ?_, ?_, ?_, ?_⟩
      · simp [hs]
      · intro hmem
        rcases List.mem_cons.mp hmem with h0 | h0
        · exact hbm h0.symm
        · exact hs0 h0
      · intro hmem
        refine hb ?_
        rw [hbuf]
        exact List.mem_cons_of_mem b hmem
      · simp
      · simp
      · show (List.map Prod.snd [] ++ ((b :: c.stack).dropLast ++ rest)).Perm
          (c.stack.dropLast ++ (b :: rest))
        rw [hs, ← List.cons_append, List.dropLast_concat, List.dropLast_concat]
        simpa using List.perm_middle.symm
      · simp [hs, hbuf]
        omega
      · simp [hbuf]
  | LEFTARC =>
    cases s' with
    | nil => simp [legal, hs] at hl
    | cons a s2 =>
      cases s2 with
      | nil => simp [legal, hs] at hl
      | cons e s3 =>
        have hsc : c.stack = a :: e :: (s3 ++ [0]) := by simpa using hs
        have happ : applyT c .LEFTARC =
            { c with stack := a :: (s3 ++ [0]), arcs := c.arcs ++ [(a, e)] } := by
          simp [applyT, hsc]
        have ha0 : a ≠ 0 := fun h => hs0 (h ▸ List.mem_cons_self a (e :: s3))
        rw [happ]
        refine ⟨⟨a :: s3, ?_, ?_, hb⟩, ?_, [(a, e)], rfl, ?_, ?_, ?_⟩
        · simp
        · intro hmem
          rcases List.mem_cons.mp hmem with h0 | h0
          · exact ha0 h0.symm
          · exact hs0 (List.mem_cons_of_mem a (List.mem_cons_of_mem e h0))
        · simp
        · show ([e] ++ ((a :: (s3 ++ [0])).dropLast ++ c.buffer)).Perm
            (c.stack.dropLast ++ c.buffer)
          rw [hsc, ← List.cons_append, List.dropLast_concat,
            show a :: e :: (s3 ++ [0]) = (a :: e :: s3) ++ [0] by simp,
            List.dropLast_concat]
          exact List.Perm.swap a e (s3 ++ c.buffer)
        · simp [hsc]
          omega
        · simp
  | RIGHTARC =>
    cases s' with
    | nil => simp [legal, hs] at hl
    | cons a s2 =>
      have hsc : c.stack = a :: (s2 ++ [0]) := by simpa using hs
      have ha0 : a ≠ 0 := fun h => hs0 (h ▸ List.mem_cons_self a s2)
      cases s2 with
      | nil =>
        have happ : applyT c .RIGHTARC =
            { c with stack := [0], arcs := c.arcs ++ [(0, a)] } := by
          simp [applyT, hsc]
        rw [happ]
        refine ⟨⟨[], by simp, by simp, hb⟩, by simp, [(0, a)], rfl, ?_, ?_, ?_⟩
        · show ([a] ++ (([0] : List Nat).dropLast ++ c.buffer)).Perm
            (c.stack.dropLast ++ c.buffer)
          rw [hsc, show a :: ([] ++ [0]) = [a] ++ [0] by simp, List.dropLast_concat]
          simp
        · simp [hsc]
        · simp
      | cons e s3 =>
        have happ : applyT c .RIGHTARC =
            { c with stack := e :: (s3 ++ [0]), arcs := c.arcs ++ [(e, a)] } := by
          simp [applyT, hsc]
        rw [happ]
        refine ⟨⟨e :: s3, by simp, ?_, hb⟩, by simp, [(e, a)], rfl, ?_, ?_, ?_⟩
        · intro hmem
          exact hs0 (List.mem_cons_of_mem a hmem)
        · show ([a] ++ ((e :: (s3 ++ [0])).dropLast ++ c.buffer)).Perm
            (c.stack.dropLast ++ c.buffer)
          rw [hsc, ← List.cons_append, List.dropLast_concat,
            show a :: (e :: s3 ++ [0]) = (a :: e :: s3) ++ [0] by simp,
            List.dropLast_concat]
          simp
        · simp [hsc]
          omega
        · simp

/-- Totality: from any configuration satisfying the invariant, the Parsing
Loop completes within fuel `2·|buffer| + |stack|` (the fatal branch and fuel
exhaustion never fire). -/
theorem parseRun_total (cls : Config → Transition → Int) :
    ∀ (fuel : Nat) (c : Config), Inv c →
      2 * c.buffer.length + c.stack.length ≤ fuel →
      (parseRun cls fuel c).isSome := by
  intro fuel
  induction fuel with
  | zero =>
    intro c hI hm
    obtain ⟨s', hs, -, -⟩ := hI
    rw [hs] at hm
    simp at hm
  | succ fuel ih =>
    intro c hI hm
    rw [parseRun]
    by_cases hterm : terminal c = true
    · rw [if_pos hterm]
      rfl
    · have ht : terminal c = false := by
        cases hterm2 : terminal c
        · rfl
        · exact absurd hterm2 hterm
      rw [if_neg hterm]
      have hne := legal_filter_ne_nil hI ht
      have hcs := pickBest_isSome (cls c) _ hne
      obtain ⟨t, hct⟩ := Option.isSome_iff_exists.mp hcs
      have hct' : chooseT cls c = some t := hct
      have hl := chooseT_legal hct'
      obtain ⟨hInew, -, -, -, -, hmeas, -⟩ := applyT_step hI hl
      have hmnew : 2 * (applyT c t).buffer.length + (applyT c t).stack.length ≤ fuel := by
        omega
      have hrec := ih (applyT c t) hInew hmnew
      obtain ⟨r, hr⟩ := Option.isSome_iff_exists.mp hrec
      rw [hct']
      simp [hr]

/-- Soundness: whenever the Parsing Loop completes from a configuration
satisfying the invariant, the final configuration is terminal, the new arcs'
dependents are exactly the pending tokens (stack body plus buffer, each once),
the trace has exactly `2·|buffer| + |stack| - 1` transitions, and exactly
`|buffer|` of them are SHIFTs. -/
theorem parseRun_sound (cls : Config → Transition → Int) :
    ∀ (fuel : Nat) (c cf : Config) (tr : List Transition), Inv c →
      parseRun cls fuel c = some (cf, tr) →
      cf.stack = [0] ∧ cf.buffer = [] ∧
      ∃ newArcs : List (Nat × Nat),
        cf.arcs = c.arcs ++ newArcs ∧
        (newArcs.map Prod.snd).Perm (c.stack.dropLast ++ c.buffer) ∧
        tr.length = 2 * c.buffer.length + (c.stack.length - 1) ∧
        tr.count Transition.SHIFT = c.buffer.length := by
  intro fuel
  induction fuel with
  | zero =>
    intro c cf tr _ h
    simp [parseRun] at h
  | succ fuel ih =>
    intro c cf tr hI hrun
    rw [parseRun] at hrun
    by_cases hterm : terminal c = true
    · rw [if_pos hterm] at hrun
      have hpair := Option.some.inj hrun
      have hcf : c = cf := congrArg Prod.fst hpair
      have htr : ([] : List Transition) = tr := congrArg Prod.snd hpair
      subst hcf
      subst htr
      have hb : c.buffer = [] := by
        rw [terminal] at hterm
        exact List.isEmpty_iff.mp (Bool.and_elim_left hterm)
      have hst : c.stack = [0] := by
        rw [terminal] at hterm
        exact of_decide_eq_true (Bool.and_elim_right hterm)
      refine ⟨hst, hb, [], by simp, ?_, by simp [hb, hst], by simp [hb]⟩
      simp [hb, hst]
    · rw [if_neg hterm] at hrun
      cases hct : chooseT cls c with
      | none => simp [hct] at hrun
      | some t =>
        simp only [hct, Option.some_bind] at hrun
        cases hrec : parseRun cls fuel (applyT c t) with
        | none => simp [hrec] at hrun
        | some r =>
          obtain ⟨cf', tr'⟩ := r
          rw [hrec] at hrun
          simp only [Option.map_some'] at hrun
          have hpair := Option.some.inj hrun
          have hcf : cf = cf' := (congrArg Prod.fst hpair).symm
          have htr : t :: tr' = tr := congrArg Prod.snd hpair
          subst hcf
          subst htr
          have hl := chooseT_legal hct
          obtain ⟨hInew, hlenN, delta, harcsN, hpermN, hmeas, hif⟩ := applyT_step hI hl
          have hcs1 : 1 ≤ c.stack.length := by
            obtain ⟨s2, hs2, -, -⟩ := hI
            rw [hs2]
            simp
          obtain ⟨hstf, hbf, na', harcs', hperm', hlen', hcount'⟩ :=
            ih (applyT c t) cf tr' hInew hrec
          refine ⟨hstf, hbf, delta ++ na', ?_, ?_, ?_, ?_⟩
          · rw [harcs', harcsN, List.append_assoc]
          · have h1 : ((delta ++ na').map Prod.snd) =
                delta.map Prod.snd ++ na'.map Prod.snd := by
              simp
            rw [h1]
            have h2 := (hperm'.append_left (delta.map Prod.snd)).trans hpermN
            exact h2
          · have hlc : (t :: tr').length = tr'.length + 1 := rfl
            rw [hlc, hlen']
            by_cases hts : t = .SHIFT
            · rw [if_pos hts] at hif
              obtain ⟨-, hblen⟩ := hif
              omega
            · rw [if_neg hts] at hif
              obtain ⟨-, hblen⟩ := hif
              omega
          · by_cases hts : t = .SHIFT
            · rw [if_pos hts] at hif
              obtain ⟨-, hblen⟩ := hif
              subst hts
              have hcc : (Transition.SHIFT :: tr').count Transition.SHIFT =
                  tr'.count Transition.SHIFT + 1 := by simp
              rw [hcc, hcount']
              omega
            · rw [if_neg hts] at hif
              obtain ⟨-, hblen⟩ := hif
              have hcc : (t :: tr').count Transition.SHIFT =
                  tr'.count Transition.SHIFT := by
                simp only [List.count_cons]
                simp_all
              rw [hcc, hcount']
              omega

/-- Every configuration reachable by legal transitions satisfies the loop
invariant. -/
theorem Reach_inv {n : Nat} {c : Config} (h : Reach n c) : Inv c := by
  induction h with
  | init => exact Inv_initConfig n
  | step c t _ hl ih => exact (applyT_step ih hl).1

/-- Counterexample to C1 as stated: for a sentence of length n = 1 the
Parsing Loop applies 2 transitions (one SHIFT and one RIGHT-ARC), not
2·1-1 = 1, and produces 1 arc, not 1-1 = 0. -/
theorem parsing_loop_count_claim_fails_at_one :
    parseRun uniformScore 3 (initConfig 1) =
      some (Config.mk [0] [] [(0, 1)], [Transition.SHIFT, Transition.RIGHTARC]) ∧
    ([Transition.SHIFT, Transition.RIGHTARC] : List Transition).length ≠ 2 * 1 - 1 ∧
    ([((0 : Nat), (1 : Nat))] : List (Nat × Nat)).length ≠ 1 - 1 := by
  refine ⟨by decide, by decide, by decide⟩

/-- C1 (amended): for every sentence of length n ≥ 1 and every classifier,
the Parsing Loop terminates (given fuel ≥ 2n+1) after exactly 2n applied
transitions — n SHIFTs and n arc operations — and its final arc set has
exactly n arcs, one per non-ROOT token. -/
theorem parsing_loop_transition_count (n fuel : Nat) (cls : Config → Transition → Int)
    (hn : 1 ≤ n) (hfuel : 2 * n + 1 ≤ fuel) :
    ∃ cf tr, parseRun cls fuel (initConfig n) = some (cf, tr) ∧
      tr.length = 2 * n ∧
      tr.count Transition.SHIFT = n ∧
      tr.length - tr.count Transition.SHIFT = n ∧
      cf.arcs.length = n := by
  have hI := Inv_initConfig n
  have hm : 2 * (initConfig n).buffer.length + (initConfig n).stack.length ≤ fuel := by
    simp [initConfig]
    omega
  obtain ⟨r, hr⟩ := Option.isSome_iff_exists.mp (parseRun_total cls fuel (initConfig n) hI hm)
  obtain ⟨cf, tr⟩ := r
  obtain ⟨hstf, hbf, na, harcs, hperm, hlen, hcount⟩ :=
    parseRun_sound cls fuel (initConfig n) cf tr hI hr
  refine ⟨cf, tr, hr, ?_, ?_, ?_, ?_⟩
  · rw [hlen]
    simp [initConfig]
  · rw [hcount]
    simp [initConfig]
  · rw [hlen, hcount]
    simp [initConfig]
    omega
  · have hl2 := hperm.length_eq
    rw [List.length_map] at hl2
    simp [initConfig] at hl2 harcs
    rw [harcs]
    omega

/-- Witness for C1 (amended): a length-2 sentence parses in 4 transitions
(2 SHIFTs, 2 arc operations) with 2 arcs. -/
theorem parsing_loop_transition_count_witness :
    ∃ cf tr, parseRun uniformScore 5 (initConfig 2) = some (cf, tr) ∧
      tr.length = 2 * 2 ∧
      tr.count Transition.SHIFT = 2 ∧
      tr.length - tr.count Transition.SHIFT = 2 ∧
      cf.arcs.length = 2 :=
  parsing_loop_transition_count 2 5 uniformScore (by decide) (by decide)

/-- C4: in the arc set of a completed run of the Parsing Loop, each non-ROOT
token index 1 ≤ i ≤ n appears exactly once as the dependent (second element)
across all arcs. -/
theorem parsed_arcs_single_head (n fuel : Nat) (cls : Config → Transition → Int)
    (cf : Config) (tr : List Transition) (i : Nat)
    (hrun : parseRun cls fuel (initConfig n) = some (cf, tr))
    (h1 : 1 ≤ i) (h2 : i ≤ n) :
    (cf.arcs.map Prod.snd).count i = 1 := by
  obtain ⟨-, -, na, harcs, hperm, -, -⟩ :=
    parseRun_sound cls fuel (initConfig n) cf tr (Inv_initConfig n) hrun
  simp [initConfig] at harcs hperm
  rw [harcs, hperm.count_eq i]
  exact List.count_eq_one_of_mem (List.nodup_range' ..)
    (List.mem_range'_1.mpr ⟨h1, by omega⟩)

/-- Witness for C4: in the completed length-2 parse, token 1 has exactly one
head. -/
theorem parsed_arcs_single_head_witness :
    ((Config.mk [0] [] [(0, 1), (0, 2)]).arcs.map Prod.snd).count 1 = 1 :=
  parsed_arcs_single_head 2 5 uniformScore (Config.mk [0] [] [(0, 1), (0, 2)])
    [Transition.SHIFT, Transition.RIGHTARC, Transition.SHIFT, Transition.RIGHTARC] 1
    (by decide) (by decide) (by decide)

/-- C5: ROOT (index 0) never occurs as the dependent (second element) of any
arc in the arc set of a completed run of the Parsing Loop. -/
theorem root_never_dependent (n fuel : Nat) (cls : Config → Transition → Int)
    (cf : Config) (tr : List Transition)
    (hrun : parseRun cls fuel (initConfig n) = some (cf, tr)) :
    (cf.arcs.map Prod.snd).count 0 = 0 := by
  obtain ⟨-, -, na, harcs, hperm, -, -⟩ :=
    parseRun_sound cls fuel (initConfig n) cf tr (Inv_initConfig n) hrun
  simp [initConfig] at harcs hperm
  rw [harcs, hperm.count_eq 0, List.count_eq_zero]
  intro hmem
  have := (List.mem_range'_1.mp hmem).1
  omega

/-- Witness for C5: ROOT is not a dependent in the completed length-2 parse. -/
theorem root_never_dependent_witness :
    ((Config.mk [0] [] [(0, 1), (0, 2)]).arcs.map Prod.snd).count 0 = 0 :=
  root_never_dependent 2 5 uniformScore (Config.mk [0] [] [(0, 1), (0, 2)])
    [Transition.SHIFT, Transition.RIGHTARC, Transition.SHIFT, Transition.RIGHTARC]
    (by decide)

/-- C6: every non-terminal configuration reachable by the Parsing Loop has at
least one legal transition among SHIFT, LEFT-ARC, RIGHT-ARC, so the fatal
no-legal-transition branch (`chooseT` returning `none`) is unreachable. -/
theorem reachable_never_stuck (n : Nat) (c : Config) (cls : Config → Transition → Int)
    (hr : Reach n c) (ht : terminal c = false) :
    transList.filter (legal c) ≠ [] ∧ chooseT cls c ≠ none := by
  have hne := legal_filter_ne_nil (Reach_inv hr) ht
  refine ⟨hne, ?_⟩
  intro h0
  have hsome := pickBest_isSome (cls c) _ hne
  rw [chooseT] at h0
  rw [h0] at hsome
  simp at hsome

/-- Witness for C6: the initial configuration of a length-1 sentence is
reachable, non-terminal, and not stuck. -/
theorem reachable_never_stuck_witness :
    transList.filter (legal (initConfig 1)) ≠ [] ∧
    chooseT uniformScore (initConfig 1) ≠ none :=
  reachable_never_stuck 1 (initConfig 1) uniformScore Reach.init (by decide)

/-- C7: if the classifier drives the Parsing Loop so that every produced arc
is gold-consistent (its head is the dependent's gold head), then every
non-ROOT token's predicted head equals its gold head and the computed UAS
equals 1. -/
theorem gold_oracle_uas_one (n fuel : Nat) (cls : Config → Transition → Int)
    (gold : List Nat) (cf : Config) (tr : List Transition)
    (hn : 1 ≤ n) (hg : gold.length = n)
    (hrun : parseRun cls fuel (initConfig n) = some (cf, tr))
    (hcons : ∀ a ∈ cf.arcs, a.1 = gold.getD (a.2 - 1) 0) :
    uas gold cf.arcs = 1 := by
  obtain ⟨-, -, na, harcs, hperm, -, -⟩ :=
    parseRun_sound cls fuel (initConfig n) cf tr (Inv_initConfig n) hrun
  simp [initConfig] at harcs hperm
  have hall : ∀ k ∈ List.range gold.length,
      (predictedHead cf.arcs (k + 1) == some (gold.getD k 0)) = true := by
    intro k hk
    have hkn : k < n := by
      rw [← hg]
      exact List.mem_range.mp hk
    have hmem : (k + 1) ∈ List.range' 1 n := List.mem_range'_1.mpr ⟨by omega, by omega⟩
    have hmem2 : (k + 1) ∈ cf.arcs.map Prod.snd := by
      rw [harcs]
      exact hperm.mem_iff.mpr hmem
    obtain ⟨a, ha, ha2⟩ := List.mem_map.mp hmem2
    have hfind : (cf.arcs.find? (fun x => x.2 == k + 1)).isSome := by
      rw [List.find?_isSome]
      exact ⟨a, ha, by simp [ha2]⟩
    obtain ⟨b, hb⟩ := Option.isSome_iff_exists.mp hfind
    have hbmem := List.mem_of_find?_eq_some hb
    have hbp := List.find?_some hb
    have hb2 : b.2 = k + 1 := by simpa using hbp
    have hbh : b.1 = gold.getD k 0 := by
      have hx := hcons b hbmem
      rw [hb2] at hx
      simpa using hx
    rw [predictedHead, hb, Option.map_some']
    simp [hbh]
  simp only [uas]
  rw [List.filter_eq_self.mpr hall, List.length_range, hg]
  exact div_self (Nat.cast_ne_zero.mpr (by omega))

/-- Witness for C7: parsing a length-2 sentence with a shift-first classifier
whose run happens to be gold-consistent for gold heads [2, 0] gives UAS 1. -/
theorem gold_oracle_uas_one_witness :
    uas [2, 0] (Config.mk [0] [] [(2, 1), (0, 2)]).arcs = 1 :=
  gold_oracle_uas_one 2 5 shiftFirstScore [2, 0] (Config.mk [0] [] [(2, 1), (0, 2)])
    [Transition.SHIFT, Transition.SHIFT, Transition.LEFTARC, Transition.RIGHTARC]
    (by decide) (by decide) (by decide) (by decide)
